import Mathlib

/-!
Shallow embedding of the frpm package manager (src/main.go).

The program keeps four SQLite relations; the three that the verified
operations touch are modelled as lists inside a `PM` state record:
`available_packages`, `installed_packages` and `transactions` (the
`repositories` table only feeds index sync, which is out of scope here).
SQL queries are modelled as list traversals, `INSERT OR REPLACE` as an
upsert keyed by the primary key, and `AUTOINCREMENT` as an explicit
counter.  The `dependencies`/`conflicts` columns hold JSON-encoded string
lists in the database; rows here carry the decoded `List String` and
`serializeDeps` reproduces the stored text where the program works on the
raw column text (the `LIKE` reverse-dependency check in `Remove`).
SQLite's `LIKE` is ASCII-case-insensitive, which `likeContains` mirrors.
Storage-level failures of `INSERT`/`UPDATE`/`DELETE` statements are
environmental; the one spot where the orchestration logic depends on such
a failure (the per-package apply step of `Install`) takes an explicit
failure oracle `env : String → Bool`.  Everything else is pure, so reads
never mutate state by construction.
-/

/-- Byte-wise prefix test on character lists. -/
def prefixOfL : List Char → List Char → Bool
  | [], _ => true
  | _ :: _, [] => false
  | a :: as, b :: bs => a == b && prefixOfL as bs

/-- Byte-wise substring (contiguous) test: does `needle` occur inside `hay`? -/
def infixOfL (needle : List Char) : List Char → Bool
  | [] => needle.isEmpty
  | b :: bs => prefixOfL needle (b :: bs) || infixOfL needle bs

/-- Case-sensitive substring containment on strings. -/
def strContainsCS (hay needle : String) : Bool :=
  infixOfL needle.data hay.data

/-- Lexicographic strict order on character lists by code point.  UTF-8
preserves code-point order, so this is exactly Go's byte-wise `<` on the
encoded strings (and SQLite's BINARY collation). -/
def lexLt : List Char → List Char → Bool
  | [], [] => false
  | [], _ :: _ => true
  | _ :: _, [] => false
  | a :: as, b :: bs =>
    if a.toNat < b.toNat then true
    else if b.toNat < a.toNat then false
    else lexLt as bs

/-- Go's `<` on strings (byte-wise lexicographic). -/
def strLt (a b : String) : Bool :=
  lexLt a.data b.data

/-- ASCII lower-casing of a single character, as SQLite's `LIKE` applies it. -/
def asciiLower (c : Char) : Char :=
  if 'A' ≤ c && c ≤ 'Z' then Char.ofNat (c.toNat + 32) else c

/-- SQLite `hay LIKE '%' || needle || '%'`: substring containment that is
case-insensitive for ASCII characters.  (Wildcard characters inside the
needle are not modelled; the verified inputs contain none.) -/
def likeContains (hay needle : String) : Bool :=
  infixOfL (needle.data.map asciiLower) (hay.data.map asciiLower)

/-- One row of `available_packages` (primary key: name, version, repository). -/
structure AvailRow where
  name : String
  version : String
  repository : String
  architecture : String
  description : String
  dependencies : List String
  conflicts : List String
  size : Int
  url : String
  checksum : String
deriving DecidableEq, Repr

/-- One row of `installed_packages` (primary key: name).  The dependency and
conflict lists are snapshots taken at install time. -/
structure InstRow where
  name : String
  version : String
  architecture : String
  description : String
  dependencies : List String
  conflicts : List String
  size : Int
  files : String
deriving DecidableEq, Repr

/-- One row of `transactions`. -/
structure TxRec where
  id : Nat
  type : String
  packages : List String
  success : Bool
deriving DecidableEq, Repr

/-- The persistent state of the package manager. -/
structure PM where
  available : List AvailRow
  installed : List InstRow
  transactions : List TxRec
  nextTxId : Nat
deriving DecidableEq, Repr

/-- The JSON text stored in a `dependencies` column (`json.Marshal` of a
string slice; names are assumed to contain no characters needing escapes). -/
def serializeDeps (l : List String) : String :=
  "[" ++ String.intercalate "," (l.map (fun s => "\"" ++ s ++ "\"")) ++ "]"

/-- Names of the currently installed packages. -/
def instNames (pm : PM) : List String :=
  pm.installed.map (fun r => r.name)

/-- `SELECT ... FROM installed_packages WHERE name = ?` (name is the PK). -/
def findInstalled (pm : PM) (pkgName : String) : Option InstRow :=
  pm.installed.find? (fun r => r.name == pkgName)

/-- Pick a row with the maximal version string from a list (determinizes the
unspecified tie order of `ORDER BY version DESC LIMIT 1`). -/
def pickLatest : List AvailRow → Option AvailRow
  | [] => none
  | r :: rs =>
    match pickLatest rs with
    | none => some r
    | some best => if strLt best.version r.version then some r else some best

/-- `SELECT ... FROM available_packages WHERE name = ? ORDER BY version DESC
LIMIT 1`: the row for `name` with the lexicographically greatest version. -/
def lookupLatest (avail : List AvailRow) (pkgName : String) : Option AvailRow :=
  pickLatest (avail.filter (fun r => r.name == pkgName))

/-- The worklist form of the recursive closure in `ResolveDependencies`:
a name is recorded in `visited` before its dependencies are pushed, so a
cycle back to an in-progress name is skipped at its next pop.  `fuel`
bounds the number of loop steps; `resolveLoop_isSome` below proves the
canonical fuel is never exhausted, so the fuel is an embedding artifact,
not program behaviour. -/
def resolveLoop (avail : List AvailRow) (inst : List String) :
    Nat → List String → List String → Option (Except String (List String))
  | 0, _, _ => none
  | _ + 1, visited, [] => some (.ok visited)
  | fuel + 1, visited, n :: rest =>
    if visited.contains n then
      resolveLoop avail inst fuel visited rest
    else if inst.contains n then
      resolveLoop avail inst fuel (visited ++ [n]) rest
    else
      match lookupLatest avail n with
      | none => some (.error ("package " ++ n ++ " not found"))
      | some row => resolveLoop avail inst fuel (visited ++ [n]) (row.dependencies ++ rest)

/-- Cost a row contributes to the termination potential: one pop plus one
push per declared dependency. -/
def rowCost (r : AvailRow) : Nat := 1 + r.dependencies.length

/-- Termination potential of a resolution state: total cost of the rows and
installed names not yet visited. -/
def pot (avail : List AvailRow) (inst : List String) (visited : List String) : Nat :=
  ((avail.filter (fun r => !(visited.contains r.name))).map rowCost).sum
    + (inst.filter (fun n => !(visited.contains n))).length

/-- Fuel that provably suffices for any resolution run. -/
def canonFuel (avail : List AvailRow) (inst : List String) : Nat :=
  pot avail inst [] + 2

/-- `ResolveDependencies`: depth-first closure of the dependency graph with a
visited set, short-circuiting installed packages.  The Go function returns
the visited map's keys in unspecified order; the model returns them in
first-visit order.  The fallback branch is unreachable (`resolveLoop_isSome`). -/
def ResolveDependencies (avail : List AvailRow) (inst : List String) (pkgName : String) :
    Except String (List String) :=
  match resolveLoop avail inst (canonFuel avail inst) [] [pkgName] with
  | some r => r
  | none => .error "resolution did not terminate"

/-- Record `cs` as further declared conflicts of candidate `k` in the
insertion-ordered association list modelling the Go `conflicts` map
(`conflicts[pkg] = append(conflicts[pkg], c)`; no entry appears for a
candidate whose conflict list is empty). -/
def addConflictEntry (m : List (String × List String)) (k : String) (cs : List String) :
    List (String × List String) :=
  if cs.isEmpty then m
  else if m.any (fun e => e.1 == k) then
    m.map (fun e => if e.1 == k then (e.1, e.2 ++ cs) else e)
  else m ++ [(k, cs)]

/-- One step of the conflicts-map construction: fetch the candidate's latest
row (a missing row — the swallowed `Scan` error — leaves the map untouched)
and record its declared conflicts. -/
def conflictStep (avail : List AvailRow) (m : List (String × List String)) (pkg : String) :
    List (String × List String) :=
  match lookupLatest avail pkg with
  | none => m
  | some row => addConflictEntry m pkg row.conflicts

/-- First phase of `CheckConflicts`: for each candidate in caller order,
accumulate the map from candidate to declared conflicts. -/
def buildConflicts (avail : List AvailRow) (packages : List String) :
    List (String × List String) :=
  packages.foldl (conflictStep avail) []

/-- The keys of the conflicts map, in insertion order. -/
def conflictKeys (avail : List AvailRow) (packages : List String) : List String :=
  (buildConflicts avail packages).map (fun e => e.1)

/-- Scan one candidate's declared conflict list in declared order; the flag
is `true` for a clash with the candidate list, `false` for a clash with an
installed package (the candidate list is checked first, as in the code). -/
def firstViolation (pkgs instN : List String) : List String → Option (String × Bool)
  | [] => none
  | c :: cs =>
    if pkgs.contains c then some (c, true)
    else if instN.contains c then some (c, false)
    else firstViolation pkgs instN cs

/-- Second phase of `CheckConflicts`: walk the conflicts map in the order
`keyOrder` (Go iterates the map in unspecified, run-to-run randomized order,
so the order is a parameter of the model) and report the first violation. -/
def checkLoop (m : List (String × List String)) (pkgs instN : List String) :
    List String → Option String
  | [] => none
  | k :: ks =>
    match m.find? (fun e => e.1 == k) with
    | none => checkLoop m pkgs instN ks
    | some e =>
      match firstViolation pkgs instN e.2 with
      | some (c, true) => some ("conflict: " ++ e.1 ++ " conflicts with " ++ c)
      | some (c, false) =>
        some ("conflict: " ++ e.1 ++ " conflicts with installed package " ++ c)
      | none => checkLoop m pkgs instN ks

/-- `CheckConflicts(packages)`, with the map iteration order made explicit. -/
def CheckConflicts (pm : PM) (packages : List String) (keyOrder : List String) :
    Option String :=
  checkLoop (buildConflicts pm.available packages) packages (instNames pm) keyOrder

/-- Modelled from the spec's words, for comparison with the code in C5: the
spec says the check iterates the candidates in caller-supplied order (and,
within a candidate, its conflict list in declared order). -/
def checkConflictsSpec (pm : PM) (packages : List String) : Option String :=
  checkLoop (buildConflicts pm.available packages) packages (instNames pm) packages

/-- `beginTransaction`: insert a pending (success = false) record and return
its autoincrement id. -/
def beginTransaction (pm : PM) (txType : String) (packages : List String) : PM × Nat :=
  ({ pm with
      transactions := pm.transactions ++ [⟨pm.nextTxId, txType, packages, false⟩],
      nextTxId := pm.nextTxId + 1 },
    pm.nextTxId)

/-- `endTransaction`: `UPDATE transactions SET success = ? WHERE id = ?`
(fire-and-forget in the source; modelled as always applied). -/
def endTransaction (pm : PM) (txId : Nat) (success : Bool) : PM :=
  { pm with
      transactions :=
        pm.transactions.map (fun t => if t.id == txId then { t with success := success } else t) }

/-- The `installed_packages` row written for an available row: a snapshot of
its current metadata (the `files` column is never populated by the code). -/
def snapshotRow (r : AvailRow) : InstRow :=
  { name := r.name, version := r.version, architecture := r.architecture,
    description := r.description, dependencies := r.dependencies,
    conflicts := r.conflicts, size := r.size, files := "" }

/-- `INSERT OR REPLACE INTO installed_packages` (primary key: name). -/
def upsertInstalled (inst : List InstRow) (row : InstRow) : List InstRow :=
  if inst.any (fun r => r.name == row.name) then
    inst.map (fun r => if r.name == row.name then row else r)
  else inst ++ [row]

/-- `installPackage`: look up the latest row for the name (a missing row
surfaces the SQL scan error) and upsert the snapshot into the installed set.
`env name = true` models a storage failure of that write (the download step
is simulated in the source and cannot fail). -/
def installPackage (env : String → Bool) (pm : PM) (pkgName : String) : PM × Option String :=
  match lookupLatest pm.available pkgName with
  | none => (pm, some "sql: no rows in result set")
  | some row =>
    if env pkgName then (pm, some ("failed to write installed package " ++ pkgName))
    else ({ pm with installed := upsertInstalled pm.installed (snapshotRow row) }, none)

/-- The per-package loop of `Install`: apply each package in turn, stopping
at the first failure (`break`); returns the final state and the success flag. -/
def applyLoop (env : String → Bool) : PM → List String → PM × Bool
  | pm, [] => (pm, true)
  | pm, p :: rest =>
    match installPackage env pm p with
    | (pm2, none) => applyLoop env pm2 rest
    | (pm2, some _) => (pm2, false)

/-- The transactional tail of `Install`: open the transaction, run the apply
loop, close the transaction with the loop's success flag, and surface a
generic error iff some application failed. -/
def installRun (env : String → Bool) (pm : PM) (packages : List String) : PM × Option String :=
  let bt := beginTransaction pm "install" packages
  let ar := applyLoop env bt.1 packages
  let pm3 := endTransaction ar.1 bt.2 ar.2
  if ar.2 then (pm3, none) else (pm3, some "installation failed")

/-- `Install`: resolve, check conflicts (both aborting with the underlying
error before any transaction exists), then run the transactional apply loop.
`keyOrder` is the map iteration order used by the embedded `CheckConflicts`. -/
def Install (env : String → Bool) (pm : PM) (pkgName : String) (keyOrder : List String) :
    PM × Option String :=
  match ResolveDependencies pm.available (instNames pm) pkgName with
  | .error e => (pm, some e)
  | .ok packages =>
    match CheckConflicts pm packages keyOrder with
    | some e => (pm, some e)
    | none => installRun env pm packages

/-- The transactional tail of `Remove`: open a "remove" transaction, delete
the row, close with success (the delete is a single infallible statement in
the model). -/
def removeRun (pm : PM) (pkgName : String) : PM × Option String :=
  let bt := beginTransaction pm "remove" [pkgName]
  let pm2 : PM := { bt.1 with installed := bt.1.installed.filter (fun r => !(r.name == pkgName)) }
  (endTransaction pm2 bt.2 true, none)

/-- The reverse-dependency blockers of `pkgName`: installed rows whose stored
dependency text matches `dependencies LIKE '%' || pkgName || '%'` — a textual
containment check against the serialized list, over every installed row. -/
def removeDependents (pm : PM) (pkgName : String) : List String :=
  (pm.installed.filter (fun r => likeContains (serializeDeps r.dependencies) pkgName)).map
    (fun r => r.name)

/-- `Remove`: refuse if not installed; refuse (before any transaction) if the
`LIKE` scan finds dependents; otherwise run the transactional delete. -/
def Remove (pm : PM) (pkgName : String) : PM × Option String :=
  if (instNames pm).contains pkgName then
    if (removeDependents pm pkgName).isEmpty then removeRun pm pkgName
    else
      (pm, some ("cannot remove " ++ pkgName ++ ": required by "
        ++ String.intercalate ", " (removeDependents pm pkgName)))
  else (pm, some ("package " ++ pkgName ++ " is not installed"))

/-- `Upgrade`: refuse if not installed or no repository row; report "already
latest" as a plain success when the installed version string is
lexicographically ≥ the latest available one; otherwise re-run the
single-package apply step directly (no transaction is ever opened). -/
def Upgrade (env : String → Bool) (pm : PM) (pkgName : String) : PM × Option String :=
  match findInstalled pm pkgName with
  | none => (pm, some ("package " ++ pkgName ++ " is not installed"))
  | some cur =>
    match lookupLatest pm.available pkgName with
    | none => (pm, some ("no updates available for " ++ pkgName))
    | some av =>
      if strLt cur.version av.version then installPackage env pm pkgName
      else (pm, none)

/-- The tuple selected by `Search`'s `SELECT DISTINCT` (the repository column
is scanned and then discarded by the Go caller). -/
structure SRow where
  name : String
  version : String
  repository : String
  architecture : String
  description : String
  size : Int
deriving DecidableEq, Repr

/-- Projection of an index row to the selected tuple. -/
def srowOf (r : AvailRow) : SRow :=
  ⟨r.name, r.version, r.repository, r.architecture, r.description, r.size⟩

/-- The `WHERE name LIKE '%q%' OR description LIKE '%q%'` filter. -/
def rowMatches (q : String) (r : AvailRow) : Bool :=
  likeContains r.name q || likeContains r.description q

/-- The `ORDER BY name, version DESC` order on selected tuples: name
ascending, and for equal names version descending. -/
def searchLE (a b : SRow) : Prop :=
  strLt a.name b.name = true ∨ (a.name = b.name ∧ strLt a.version b.version = false)

instance : DecidableRel searchLE := fun a b => by
  unfold searchLE; infer_instance

/-- `Search`: filter the index by the case-insensitive `LIKE` match, apply
`SELECT DISTINCT` over the selected tuple, and sort by name ascending then
version descending (ties determinized by sort stability). -/
def Search (avail : List AvailRow) (q : String) : List SRow :=
  List.insertionSort searchLE ((avail.filter (rowMatches q)).map srowOf).dedup

/-- The `ORDER BY` order on bare (name, version) pairs, for `searchSpec`. -/
def pairLE (a b : String × String) : Prop :=
  strLt a.1 b.1 = true ∨ (a.1 = b.1 ∧ strLt a.2 b.2 = false)

instance : DecidableRel pairLE := fun a b => by
  unfold pairLE; infer_instance

/-- Modelled from the spec's words, for comparison with the code in C8: the
distinct (name, version) pairs whose name or description contains the query
case-sensitively, newest version first within each name. -/
def searchSpec (avail : List AvailRow) (q : String) : List (String × String) :=
  List.insertionSort pairLE
    ((avail.filter (fun r => strContainsCS r.name q || strContainsCS r.description q)).map
      (fun r => (r.name, r.version))).dedup

/-- Does the conflicts-map entry for key `k` contain a violation?  (Abstracts
one iteration of the reporting loop for the order-invariance lemma.) -/
def keyHasViolation (m : List (String × List String)) (pkgs instN : List String)
    (k : String) : Bool :=
  match m.find? (fun e => e.1 == k) with
  | none => false
  | some e => (firstViolation pkgs instN e.2).isSome

/-! ### Concrete states used by the witnesses and counterexamples -/

/-- A repository index with the dependency cycle A → B → A. -/
def axCyc : List AvailRow :=
  [{ name := "A", version := "1.0", repository := "r", architecture := "", description := "",
     dependencies := ["B"], conflicts := [], size := 0, url := "", checksum := "" },
   { name := "B", version := "1.0", repository := "r", architecture := "", description := "",
     dependencies := ["A"], conflicts := [], size := 0, url := "", checksum := "" }]

/-- Fresh store whose index has A depending on B and C (no conflicts). -/
def pmC1 : PM :=
  { available :=
      [{ name := "A", version := "1.0", repository := "r", architecture := "", description := "",
         dependencies := ["B", "C"], conflicts := [], size := 0, url := "", checksum := "" },
       { name := "B", version := "1.0", repository := "r", architecture := "", description := "",
         dependencies := [], conflicts := [], size := 0, url := "", checksum := "" },
       { name := "C", version := "1.0", repository := "r", architecture := "", description := "",
         dependencies := [], conflicts := [], size := 0, url := "", checksum := "" }],
    installed := [], transactions := [], nextTxId := 1 }

/-- Apply-failure oracle that fails exactly the write for package B. -/
def envC1 : String → Bool := fun s => s == "B"

/-- Store in which candidates P and Q each conflict with a distinct installed
package (X and Y respectively), so the conflicts map has two violating keys. -/
def pmC5 : PM :=
  { available :=
      [{ name := "P", version := "1", repository := "r", architecture := "", description := "",
         dependencies := [], conflicts := ["X"], size := 0, url := "", checksum := "" },
       { name := "Q", version := "1", repository := "r", architecture := "", description := "",
         dependencies := [], conflicts := ["Y"], size := 0, url := "", checksum := "" }],
    installed :=
      [{ name := "X", version := "1", architecture := "", description := "",
         dependencies := [], conflicts := [], size := 0, files := "" },
       { name := "Y", version := "1", architecture := "", description := "",
         dependencies := [], conflicts := [], size := 0, files := "" }],
    transactions := [], nextTxId := 1 }

/-- Store with installed packages "foo" and "Bpkg", where Bpkg's snapshotted
dependency list names "foobar" (which textually contains "foo"). -/
def pmC6 : PM :=
  { available := [],
    installed :=
      [{ name := "foo", version := "1", architecture := "", description := "",
         dependencies := [], conflicts := [], size := 0, files := "" },
       { name := "Bpkg", version := "1", architecture := "", description := "",
         dependencies := ["foobar"], conflicts := [], size := 0, files := "" }],
    transactions := [], nextTxId := 1 }

/-- Store with package A installed at version 1.0 and the same version latest
in the index. -/
def pmC7 : PM :=
  { available :=
      [{ name := "A", version := "1.0", repository := "r", architecture := "", description := "",
         dependencies := [], conflicts := [], size := 0, url := "", checksum := "" }],
    installed :=
      [{ name := "A", version := "1.0", architecture := "", description := "",
         dependencies := [], conflicts := [], size := 0, files := "" }],
    transactions := [], nextTxId := 1 }

/-- Index carrying the same (name, version) in two repositories, with a name
that matches the query "a" only case-insensitively. -/
def axC8 : List AvailRow :=
  [{ name := "Abc", version := "1.0", repository := "r1", architecture := "", description := "",
     dependencies := [], conflicts := [], size := 0, url := "", checksum := "" },
   { name := "Abc", version := "1.0", repository := "r2", architecture := "", description := "",
     dependencies := [], conflicts := [], size := 0, url := "", checksum := "" }]

/-! ### Order lemmas for the byte-wise string comparison -/

theorem lexLt_asymm : ∀ x y : List Char, lexLt x y = true → lexLt y x = false
  | [], [] => by simp [lexLt]
  | [], _ :: _ => by simp [lexLt]
  | _ :: _, [] => by simp [lexLt]
  | a :: as, b :: bs => by
    simp only [lexLt]
    by_cases h1 : a.toNat < b.toNat
    · have h2 : ¬ b.toNat < a.toNat := by omega
      simp [h1, h2]
    · by_cases h2 : b.toNat < a.toNat
      · simp [h1, h2]
      · simp only [h1, h2, if_false]
        exact lexLt_asymm as bs

theorem lexLt_conn : ∀ x y : List Char, lexLt x y = false → lexLt y x = false → x = y
  | [], [] => fun _ _ => rfl
  | [], _ :: _ => by simp [lexLt]
  | _ :: _, [] => by simp [lexLt]
  | a :: as, b :: bs => by
    simp only [lexLt]
    by_cases h1 : a.toNat < b.toNat
    · simp [h1]
    · by_cases h2 : b.toNat < a.toNat
      · have h1' : ¬ a.toNat < b.toNat := h1
        simp [h1, h2]
      · simp only [h1, h2, if_false]
        intro hxy hyx
        have hab : a = b := by
          have : a.toNat = b.toNat := by omega
          exact Char.ofNat_toNat a ▸ Char.ofNat_toNat b ▸ congrArg Char.ofNat this
        rw [hab, lexLt_conn as bs hxy hyx]

theorem lexLt_trans : ∀ x y z : List Char,
    lexLt x y = true → lexLt y z = true → lexLt x z = true
  | [], [], _ => by simp [lexLt]
  | [], _ :: _, [] => by simp [lexLt]
  | [], _ :: _, _ :: _ => by simp [lexLt]
  | _ :: _, [], _ => by simp [lexLt]
  | _ :: _, _ :: _, [] => by simp [lexLt]
  | a :: as, b :: bs, c :: cs => by
    simp only [lexLt]
    by_cases h1 : a.toNat < b.toNat <;> by_cases h2 : b.toNat < a.toNat <;>
      by_cases h3 : b.toNat < c.toNat <;> by_cases h4 : c.toNat < b.toNat <;>
        by_cases h5 : a.toNat < c.toNat <;> by_cases h6 : c.toNat < a.toNat <;>
          simp [h1, h2, h3, h4, h5, h6] <;> first
            | omega
            | (intro hxy hyz; exact lexLt_trans as bs cs hxy hyz)

theorem lexLt_false_trans (x y z : List Char)
    (hxy : lexLt x y = false) (hyz : lexLt y z = false) : lexLt x z = false := by
  cases hxz : lexLt x z with
  | false => rfl
  | true =>
    cases hzy : lexLt z y with
    | true =>
      rw [lexLt_trans x z y hxz hzy] at hxy
      cases hxy
    | false =>
      have hyzeq : y = z := lexLt_conn y z hyz hzy
      rw [hyzeq, hxz] at hxy
      cases hxy

theorem strLt_asymm (a b : String) (h : strLt a b = true) : strLt b a = false :=
  lexLt_asymm _ _ h

theorem strLt_conn (a b : String) (h1 : strLt a b = false) (h2 : strLt b a = false) : a = b :=
  String.ext (lexLt_conn _ _ h1 h2)

theorem strLt_trans (a b c : String) (h1 : strLt a b = true) (h2 : strLt b c = true) :
    strLt a c = true :=
  lexLt_trans _ _ _ h1 h2

theorem strLt_false_trans (a b c : String) (h1 : strLt a b = false) (h2 : strLt b c = false) :
    strLt a c = false :=
  lexLt_false_trans _ _ _ h1 h2

instance : IsTotal SRow searchLE where
  total a b := by
    cases h1 : strLt a.name b.name with
    | true => exact Or.inl (Or.inl h1)
    | false =>
      cases h2 : strLt b.name a.name with
      | true => exact Or.inr (Or.inl h2)
      | false =>
        have heq : a.name = b.name := strLt_conn _ _ h1 h2
        cases hv : strLt a.version b.version with
        | false => exact Or.inl (Or.inr ⟨heq, hv⟩)
        | true => exact Or.inr (Or.inr ⟨heq.symm, strLt_asymm _ _ hv⟩)

instance : IsTrans SRow searchLE where
  trans a b c hab hbc := by
    rcases hab with h1 | ⟨h1, v1⟩
    · rcases hbc with h2 | ⟨h2, v2⟩
      · exact Or.inl (strLt_trans _ _ _ h1 h2)
      · exact Or.inl (h2 ▸ h1)
    · rcases hbc with h2 | ⟨h2, v2⟩
      · exact Or.inl (by rw [h1]; exact h2)
      · exact Or.inr ⟨h1.trans h2, strLt_false_trans _ _ _ v1 v2⟩

/-! ### Boolean membership bridges -/

theorem contains_iff_mem {α : Type} [BEq α] [LawfulBEq α] (l : List α) (a : α) :
    l.contains a = true ↔ a ∈ l := by
  rw [show l.contains a = List.elem a l from rfl]
  exact List.elem_iff

theorem contains_eq_false_iff {α : Type} [BEq α] [LawfulBEq α] (l : List α) (a : α) :
    l.contains a = false ↔ a ∉ l := by
  rw [show l.contains a = List.elem a l from rfl]
  cases h : List.elem a l with
  | true => simp only [Bool.true_eq_false, false_iff, not_not]; exact List.elem_iff.mp h
  | false =>
    simp only [true_iff]
    intro hm
    rw [List.elem_iff.mpr hm] at h
    cases h

theorem contains_append_singleton {α : Type} [BEq α] [LawfulBEq α] (v : List α) (n x : α) :
    (v ++ [n]).contains x = (v.contains x || x == n) := by
  cases h1 : v.contains x with
  | true =>
    have h3 : (v ++ [n]).contains x = true :=
      (contains_iff_mem _ _).mpr (List.mem_append_left _ ((contains_iff_mem _ _).mp h1))
    rw [h3, Bool.true_or]
  | false =>
    cases h2 : x == n with
    | true =>
      have hx : x = n := eq_of_beq h2
      have h3 : (v ++ [n]).contains x = true :=
        (contains_iff_mem _ _).mpr (List.mem_append_right _ (by simp [hx]))
      rw [h3, Bool.or_true]
    | false =>
      cases h3 : (v ++ [n]).contains x with
      | false => rfl
      | true =>
        rcases List.mem_append.mp ((contains_iff_mem _ _).mp h3) with hv | hn
        · rw [(contains_iff_mem _ _).mpr hv] at h1; cases h1
        · have : x = n := by simpa using hn
          rw [this, beq_self_eq_true] at h2; cases h2

/-! ### Termination of the resolver -/

theorem sum_map_filter_split {α : Type} (l : List α) (p q : α → Bool) (f : α → Nat) :
    ((l.filter p).map f).sum
      = ((l.filter (fun x => p x && q x)).map f).sum
        + ((l.filter (fun x => p x && !(q x))).map f).sum := by
  induction l with
  | nil => simp
  | cons a l ih =>
    cases hp : p a with
    | false => simpa [List.filter_cons, hp] using ih
    | true =>
      cases hq : q a with
      | true => simp [List.filter_cons, hp, hq]; omega
      | false => simp [List.filter_cons, hp, hq]; omega

theorem length_filter_split {α : Type} (l : List α) (p q : α → Bool) :
    (l.filter p).length
      = (l.filter (fun x => p x && q x)).length
        + (l.filter (fun x => p x && !(q x))).length := by
  induction l with
  | nil => simp
  | cons a l ih =>
    cases hp : p a with
    | false => simpa [List.filter_cons, hp] using ih
    | true =>
      cases hq : q a with
      | true => simp [List.filter_cons, hp, hq]; omega
      | false => simp [List.filter_cons, hp, hq]; omega

theorem pickLatest_mem : ∀ (l : List AvailRow) (r : AvailRow), pickLatest l = some r → r ∈ l := by
  intro l
  induction l with
  | nil => intro r h; simp [pickLatest] at h
  | cons a l ih =>
    intro r h
    simp only [pickLatest] at h
    cases hp : pickLatest l with
    | none => rw [hp] at h; cases h; exact List.mem_cons_self a l
    | some best =>
      rw [hp] at h
      dsimp only at h
      by_cases hv : strLt best.version a.version = true
      · rw [if_pos hv] at h; cases h; exact List.mem_cons_self a l
      · rw [if_neg hv] at h; cases h; exact List.mem_cons_of_mem a (ih _ hp)

theorem lookupLatest_mem (avail : List AvailRow) (pkgName : String) (r : AvailRow)
    (h : lookupLatest avail pkgName = some r) : r ∈ avail ∧ r.name = pkgName := by
  have hm := pickLatest_mem _ r h
  have := List.mem_filter.mp hm
  exact ⟨this.1, eq_of_beq this.2⟩

theorem pot_filter_rewrite (avail : List AvailRow) (v : List String) (n : String) :
    avail.filter (fun r => !((v ++ [n]).contains r.name))
      = avail.filter (fun r => !(v.contains r.name) && !(r.name == n)) :=
  List.filter_congr (fun r _ => by rw [contains_append_singleton, Bool.not_or])

theorem pot_filter_rewrite_inst (inst : List String) (v : List String) (n : String) :
    inst.filter (fun m => !((v ++ [n]).contains m))
      = inst.filter (fun m => !(v.contains m) && !(m == n)) :=
  List.filter_congr (fun m _ => by rw [contains_append_singleton, Bool.not_or])

theorem pot_mark_inst (avail : List AvailRow) (inst : List String) (v : List String) (n : String)
    (h1 : v.contains n = false) (h2 : inst.contains n = true) :
    pot avail inst (v ++ [n]) + 1 ≤ pot avail inst v := by
  unfold pot
  rw [pot_filter_rewrite, pot_filter_rewrite_inst]
  have hnv : n ∉ v := (contains_eq_false_iff v n).mp h1
  have hA := sum_map_filter_split avail (fun r => !(v.contains r.name))
    (fun r => !(r.name == n)) rowCost
  have hI := length_filter_split inst (fun m => !(v.contains m)) (fun m => !(m == n))
  have hmem : n ∈ inst.filter (fun m => !(v.contains m) && !(!(m == n))) := by
    refine List.mem_filter.mpr ⟨(contains_iff_mem inst n).mp h2, ?_⟩
    simp [h1, hnv]
  have hpos : 0 < (inst.filter (fun m => !(v.contains m) && !(!(m == n)))).length :=
    List.length_pos.mpr (List.ne_nil_of_mem hmem)
  omega

theorem pot_mark_avail (avail : List AvailRow) (inst : List String) (v : List String) (n : String)
    (row : AvailRow) (h1 : v.contains n = false) (hl : lookupLatest avail n = some row) :
    pot avail inst (v ++ [n]) + 1 + row.dependencies.length ≤ pot avail inst v := by
  unfold pot
  rw [pot_filter_rewrite, pot_filter_rewrite_inst]
  have hnv : n ∉ v := (contains_eq_false_iff v n).mp h1
  have hA := sum_map_filter_split avail (fun r => !(v.contains r.name))
    (fun r => !(r.name == n)) rowCost
  have hI := length_filter_split inst (fun m => !(v.contains m)) (fun m => !(m == n))
  obtain ⟨hrmem, hrname⟩ := lookupLatest_mem avail n row hl
  have hmem : row ∈ avail.filter (fun r => !(v.contains r.name) && !(!(r.name == n))) := by
    refine List.mem_filter.mpr ⟨hrmem, ?_⟩
    rw [hrname]
    simp [h1, hnv]
  have hcost : rowCost row
      ≤ ((avail.filter (fun r => !(v.contains r.name) && !(!(r.name == n)))).map rowCost).sum :=
    List.single_le_sum (fun x _ => Nat.zero_le x) _ (List.mem_map.mpr ⟨row, hmem, rfl⟩)
  have hrc : rowCost row = 1 + row.dependencies.length := rfl
  omega

theorem resolveLoop_isSome (avail : List AvailRow) (inst : List String) :
    ∀ (fuel : Nat) (visited work : List String),
      work.length + pot avail inst visited + 1 ≤ fuel →
      (resolveLoop avail inst fuel visited work).isSome = true := by
  intro fuel
  induction fuel with
  | zero => intro v w h; omega
  | succ fuel ih =>
    intro v w h
    cases w with
    | nil => simp [resolveLoop]
    | cons n rest =>
      rw [List.length_cons] at h
      simp only [resolveLoop]
      cases h1 : v.contains n with
      | true =>
        rw [if_pos rfl]
        exact ih v rest (by omega)
      | false =>
        rw [if_neg Bool.false_ne_true]
        cases h2 : inst.contains n with
        | true =>
          rw [if_pos rfl]
          have hp := pot_mark_inst avail inst v n h1 h2
          exact ih (v ++ [n]) rest (by omega)
        | false =>
          rw [if_neg Bool.false_ne_true]
          cases hl : lookupLatest avail n with
          | none => simp
          | some row =>
            have hp := pot_mark_avail avail inst v n row h1 hl
            have hlen : (row.dependencies ++ rest).length
                = row.dependencies.length + rest.length := List.length_append _ _
            exact ih (v ++ [n]) (row.dependencies ++ rest) (by omega)

theorem resolveLoop_canonFuel_isSome (avail : List AvailRow) (inst : List String)
    (root : String) :
    (resolveLoop avail inst (canonFuel avail inst) [] [root]).isSome = true := by
  apply resolveLoop_isSome
  rw [canonFuel]
  simp only [List.length_cons, List.length_nil]
  omega

/-- Claim C3: for a name already present in the Installed-Set Store,
`ResolveDependencies` returns exactly the singleton `[name]` — for every
repository index whatsoever, so the name's dependency row is never consulted
and nothing is recursed into.  (The embedding is pure, so no store is
mutated by construction.) -/
theorem resolve_installed_shortcircuit_C3 (avail : List AvailRow) (inst : List String)
    (name : String) (h : name ∈ inst) :
    ResolveDependencies avail inst name = .ok [name] := by
  have hc : inst.contains name = true := (contains_iff_mem inst name).mpr h
  have hfuel : canonFuel avail inst = (pot avail inst [] + 1) + 1 := rfl
  unfold ResolveDependencies
  rw [hfuel]
  simp only [resolveLoop, List.contains, List.elem]
  rw [if_neg Bool.false_ne_true, if_pos hc]
  simp only [resolveLoop, List.nil_append]

/-- Claim C3 witness: with an empty index and "A" installed, resolution of
"A" yields exactly {"A"}. -/
theorem resolve_installed_shortcircuit_C3_witness :
    ("A" ∈ (["A"] : List String))
      ∧ ResolveDependencies axCyc ["A"] "A" = .ok ["A"] :=
  ⟨by decide, resolve_installed_shortcircuit_C3 axCyc ["A"] "A" (by decide)⟩

/-- Claim C4: resolution terminates on every input, cyclic graphs included:
the canonical fuel of the worklist embedding is never exhausted (first
conjunct, proved from the visited-set potential argument — a name enters
`visited` before its dependencies are pushed); a worklist head that is
already visited is a no-op (second conjunct); and on the concrete cyclic
index A → B → A with nothing installed, resolving "A" yields {A, B}
(third conjunct). -/
theorem resolve_terminates_C4 :
    (∀ (avail : List AvailRow) (inst : List String) (root : String),
        (resolveLoop avail inst (canonFuel avail inst) [] [root]).isSome = true)
    ∧ (∀ (avail : List AvailRow) (inst : List String) (fuel : Nat)
          (visited rest : List String) (n : String),
        visited.contains n = true →
          resolveLoop avail inst (fuel + 1) visited (n :: rest)
            = resolveLoop avail inst fuel visited rest)
    ∧ ResolveDependencies axCyc [] "A" = .ok ["A", "B"] := by
  refine ⟨resolveLoop_canonFuel_isSome, ?_, rfl⟩
  intro avail inst fuel visited rest n h
  simp only [resolveLoop]
  rw [if_pos h]

/-- Claim C4 witness: the visited-head no-op conjunct applied at the cyclic
index, with its hypothesis discharged concretely. -/
theorem resolve_terminates_C4_witness :
    ((["A"] : List String).contains "A" = true)
      ∧ resolveLoop axCyc [] 5 ["A"] ["A", "B"] = resolveLoop axCyc [] 4 ["A"] ["B"] :=
  ⟨by decide, resolve_terminates_C4.2.1 axCyc [] 4 ["A"] ["B"] "A" (by decide)⟩

/-! ### Conflict-checker lemmas -/

theorem checkLoop_isSome_eq_any (m : List (String × List String)) (pkgs instN : List String) :
    ∀ ks, (checkLoop m pkgs instN ks).isSome = ks.any (keyHasViolation m pkgs instN) := by
  intro ks
  induction ks with
  | nil => simp [checkLoop]
  | cons k ks ih =>
    simp only [checkLoop, List.any_cons]
    cases hf : m.find? (fun e => e.1 == k) with
    | none => simp [keyHasViolation, hf, ih]
    | some e =>
      cases hv : firstViolation pkgs instN e.2 with
      | none => simp [keyHasViolation, hf, hv, ih]
      | some cb =>
        cases cb with
        | mk c b => cases b <;> simp [keyHasViolation, hf, hv]

theorem perm_any_eq {α : Type} (f : α → Bool) {l₁ l₂ : List α} (h : l₁.Perm l₂) :
    l₁.any f = l₂.any f := by
  cases hb : l₂.any f with
  | true =>
    obtain ⟨x, hx, hfx⟩ := List.any_eq_true.mp hb
    exact List.any_eq_true.mpr ⟨x, h.mem_iff.mpr hx, hfx⟩
  | false =>
    cases ha : l₁.any f with
    | false => rfl
    | true =>
      obtain ⟨x, hx, hfx⟩ := List.any_eq_true.mp ha
      have := List.any_eq_true.mpr ⟨x, h.mem_iff.mp hx, hfx⟩
      rw [this] at hb
      cases hb

/-- Claim C5 (amended): which violation `CheckConflicts` reports depends on
the order in which the Go map of candidate conflicts is iterated — an order
that is unspecified and run-to-run randomized, not the caller-supplied
candidate order.  What is order-independent is *whether* a violation is
reported: for any two iteration orders that are permutations of each other,
the check errors under one iff it errors under the other (and within one
candidate the declared conflict list is always scanned in declared order,
as `firstViolation` defines). -/
theorem checkConflicts_order_invariant_C5 (pm : PM) (pkgs o₁ o₂ : List String)
    (hperm : o₁.Perm o₂) :
    (CheckConflicts pm pkgs o₁).isSome = (CheckConflicts pm pkgs o₂).isSome := by
  unfold CheckConflicts
  rw [checkLoop_isSome_eq_any, checkLoop_isSome_eq_any]
  exact perm_any_eq _ hperm

/-- Claim C5 witness: the order-invariance applied to the two-violation
store at the two map orders of the counterexample. -/
theorem checkConflicts_order_invariant_C5_witness :
    (["P", "Q"] : List String).Perm ["Q", "P"]
      ∧ (CheckConflicts pmC5 ["P", "Q"] ["P", "Q"]).isSome
          = (CheckConflicts pmC5 ["P", "Q"] ["Q", "P"]).isSome :=
  ⟨by decide, checkConflicts_order_invariant_C5 pmC5 ["P", "Q"] ["P", "Q"] ["Q", "P"] (by decide)⟩

/-- Claim C5 counterexample: with candidates [P, Q] each conflicting with a
distinct installed package, the keys of the conflicts map are [P, Q]; the
reversed iteration order [Q, P] — an order Go's randomized map iteration can
produce — reports Q's violation, while the spec's caller-supplied-order
reading (`checkConflictsSpec`) reports P's, so the two runs differ and the
reported violation is not determined by the candidate order. -/
theorem checkConflicts_order_C5_counterexample :
    conflictKeys pmC5.available ["P", "Q"] = ["P", "Q"]
      ∧ (["Q", "P"] : List String).Perm (conflictKeys pmC5.available ["P", "Q"])
      ∧ CheckConflicts pmC5 ["P", "Q"] ["Q", "P"]
          = some "conflict: Q conflicts with installed package Y"
      ∧ checkConflictsSpec pmC5 ["P", "Q"]
          = some "conflict: P conflicts with installed package X"
      ∧ CheckConflicts pmC5 ["P", "Q"] ["Q", "P"] ≠ checkConflictsSpec pmC5 ["P", "Q"] := by
  refine ⟨by decide, by decide, by decide, by decide, by decide⟩

/-! ### Missing-row candidates are skipped (C10) -/

theorem foldl_conflictStep_skip (avail : List AvailRow) (name : String)
    (h : lookupLatest avail name = none) :
    ∀ (pkgs : List String) (acc : List (String × List String)),
      pkgs.foldl (conflictStep avail) acc
        = (pkgs.filter (fun p => !(p == name))).foldl (conflictStep avail) acc := by
  intro pkgs
  induction pkgs with
  | nil => intro acc; rfl
  | cons p pkgs ih =>
    intro acc
    cases hp : p == name with
    | true =>
      have hpe : p = name := eq_of_beq hp
      have hstep : conflictStep avail acc p = acc := by
        rw [hpe]; unfold conflictStep; rw [h]
      simp only [List.foldl_cons, List.filter_cons, hp, Bool.not_true, Bool.false_eq_true,
        if_false, hstep]
      exact ih acc
    | false =>
      simp only [List.foldl_cons, List.filter_cons, hp, Bool.not_false, if_pos rfl,
        List.foldl_cons]
      exact ih (conflictStep avail acc p)

theorem checkLoop_nil_map (pkgs instN : List String) :
    ∀ ks, checkLoop [] pkgs instN ks = none := by
  intro ks
  induction ks with
  | nil => rfl
  | cons k ks ih => simp only [checkLoop, List.find?_nil]; exact ih

/-- Claim C10: a candidate with no `available_packages` row contributes
nothing to the conflict check: the swallowed lookup error means the
conflicts map is the same as if every occurrence of that candidate were
deleted from the candidate list, and such a candidate alone can never make
`CheckConflicts` fail, whatever iteration order the map uses. -/
theorem checkConflicts_missing_candidate_C10 (pm : PM) (pkgs : List String)
    (name : String) (keyOrder : List String)
    (h : lookupLatest pm.available name = none) :
    buildConflicts pm.available pkgs
        = buildConflicts pm.available (pkgs.filter (fun p => !(p == name)))
      ∧ CheckConflicts pm [name] keyOrder = none := by
  constructor
  · unfold buildConflicts
    exact foldl_conflictStep_skip pm.available name h pkgs []
  · unfold CheckConflicts
    have hb : buildConflicts pm.available [name] = [] := by
      unfold buildConflicts
      simp only [List.foldl_cons, List.foldl_nil]
      unfold conflictStep
      rw [h]
    rw [hb]
    exact checkLoop_nil_map _ _ keyOrder

/-- Claim C10 witness: the install set's own "X" has no index row in
`pmC6`'s empty index, so it is skipped and can never fail the check. -/
theorem checkConflicts_missing_candidate_C10_witness :
    lookupLatest pmC6.available "foo" = none
      ∧ (buildConflicts pmC6.available ["foo", "Bpkg"]
            = buildConflicts pmC6.available
                ((["foo", "Bpkg"] : List String).filter (fun p => !(p == "foo")))
          ∧ CheckConflicts pmC6 ["foo"] ["foo"] = none) :=
  ⟨by decide, checkConflicts_missing_candidate_C10 pmC6 ["foo", "Bpkg"] "foo" ["foo"] (by decide)⟩

/-! ### Substring matching survives ASCII lower-casing (for C6) -/

theorem prefixOfL_map_asciiLower : ∀ n h : List Char, prefixOfL n h = true →
    prefixOfL (n.map asciiLower) (h.map asciiLower) = true := by
  intro n
  induction n with
  | nil => intro h _; rfl
  | cons a as ih =>
    intro h hp
    cases h with
    | nil => simp [prefixOfL] at hp
    | cons b bs =>
      simp only [prefixOfL, Bool.and_eq_true] at hp
      obtain ⟨hab, hrest⟩ := hp
      have hab' : a = b := eq_of_beq hab
      subst hab'
      simp only [List.map_cons, prefixOfL, Bool.and_eq_true]
      exact ⟨beq_self_eq_true _, ih bs hrest⟩

theorem infixOfL_map_asciiLower (n : List Char) : ∀ h : List Char, infixOfL n h = true →
    infixOfL (n.map asciiLower) (h.map asciiLower) = true := by
  intro h
  induction h with
  | nil =>
    intro hh
    simp only [infixOfL] at hh
    have : n = [] := List.isEmpty_iff.mp hh
    subst this
    rfl
  | cons b bs ih =>
    intro hh
    simp only [infixOfL, Bool.or_eq_true] at hh
    rcases hh with hp | hi
    · simp only [List.map_cons, infixOfL, Bool.or_eq_true]
      exact Or.inl (prefixOfL_map_asciiLower n (b :: bs) hp)
    · simp only [List.map_cons, infixOfL, Bool.or_eq_true]
      exact Or.inr (ih hi)

theorem likeContains_of_strContainsCS (hay needle : String)
    (h : strContainsCS hay needle = true) : likeContains hay needle = true :=
  infixOfL_map_asciiLower _ _ h

/-- Claim C6: if some *other* installed package's serialized dependency list
textually contains an installed name, `Remove` of that name fails with no
state change at all (in particular no transaction record), and the error
lists the dependents, the other package among them.  The check is textual
containment over the serialized JSON list — exactly what makes a dependency
on "foobar" also block `Remove "foo"`, as the witness instantiates. -/
theorem remove_blocked_by_dependent_C6 (pm : PM) (name : String) (other : InstRow)
    (hmem : other ∈ pm.installed)
    (hother : other.name ≠ name)
    (hdep : strContainsCS (serializeDeps other.dependencies) name = true)
    (hinst : name ∈ instNames pm) :
    (Remove pm name).1 = pm
      ∧ (Remove pm name).2
          = some ("cannot remove " ++ name ++ ": required by "
              ++ String.intercalate ", " (removeDependents pm name))
      ∧ other.name ∈ removeDependents pm name := by
  have hc : (instNames pm).contains name = true := (contains_iff_mem _ _).mpr hinst
  have hlike : likeContains (serializeDeps other.dependencies) name = true :=
    likeContains_of_strContainsCS _ _ hdep
  have hdeps : other.name ∈ removeDependents pm name := by
    unfold removeDependents
    exact List.mem_map.mpr ⟨other, List.mem_filter.mpr ⟨hmem, hlike⟩, rfl⟩
  have hne : (removeDependents pm name).isEmpty = false :=
    List.isEmpty_eq_false.mpr (List.ne_nil_of_mem hdeps)
  unfold Remove
  rw [if_pos hc, if_neg (by rw [hne]; exact Bool.false_ne_true)]
  exact ⟨rfl, rfl, hdeps⟩

/-- Claim C6 witness: installed "Bpkg" depends on "foobar", whose serialized
list textually contains "foo"; `Remove "foo"` is blocked, naming Bpkg, with
the store untouched. -/
theorem remove_blocked_by_dependent_C6_witness :
    ((pmC6.installed.get? 1 = some
        { name := "Bpkg", version := "1", architecture := "", description := "",
          dependencies := ["foobar"], conflicts := [], size := 0, files := "" })
      ∧ strContainsCS (serializeDeps ["foobar"]) "foo" = true)
      ∧ ((Remove pmC6 "foo").1 = pmC6
          ∧ (Remove pmC6 "foo").2
              = some ("cannot remove " ++ "foo" ++ ": required by "
                  ++ String.intercalate ", " (removeDependents pmC6 "foo"))
          ∧ "Bpkg" ∈ removeDependents pmC6 "foo") :=
  ⟨⟨by decide, by decide⟩,
    remove_blocked_by_dependent_C6 pmC6 "foo"
      { name := "Bpkg", version := "1", architecture := "", description := "",
        dependencies := ["foobar"], conflicts := [], size := 0, files := "" }
      (by decide) (by decide) (by decide) (by decide)⟩

/-- Claim C7: when the installed version string is lexicographically ≥ the
latest available one, `Upgrade` succeeds (no error) and returns the state
entirely unchanged — no Installed-Set mutation and no transaction record. -/
theorem upgrade_already_latest_C7 (env : String → Bool) (pm : PM) (name : String)
    (cur : InstRow) (av : AvailRow)
    (hcur : findInstalled pm name = some cur)
    (hav : lookupLatest pm.available name = some av)
    (hge : strLt cur.version av.version = false) :
    Upgrade env pm name = (pm, none) := by
  unfold Upgrade
  rw [hcur, hav]
  dsimp only
  rw [if_neg (by rw [hge]; exact Bool.false_ne_true)]

/-- Claim C7 witness: installed "1.0", available "1.0" — Upgrade is a
successful no-op. -/
theorem upgrade_already_latest_C7_witness :
    (findInstalled pmC7 "A" = some
        { name := "A", version := "1.0", architecture := "", description := "",
          dependencies := [], conflicts := [], size := 0, files := "" }
      ∧ strLt "1.0" "1.0" = false)
      ∧ Upgrade (fun _ => false) pmC7 "A" = (pmC7, none) :=
  ⟨⟨by decide, by decide⟩,
    upgrade_already_latest_C7 (fun _ => false) pmC7 "A"
      { name := "A", version := "1.0", architecture := "", description := "",
        dependencies := [], conflicts := [], size := 0, files := "" }
      { name := "A", version := "1.0", repository := "r", architecture := "", description := "",
        dependencies := [], conflicts := [], size := 0, url := "", checksum := "" }
      (by decide) (by decide) (by decide)⟩

/-- Claim C9: `Upgrade` never touches the transaction ledger: on every
branch — not installed, no repository row, already latest, and an actual
(attempted or successful) apply of the new version — the transactions
relation and the autoincrement counter are unchanged, so no Upgrade is ever
recorded and none can be targeted by `Rollback`. -/
theorem upgrade_no_transaction_C9 (env : String → Bool) (pm : PM) (name : String) :
    (Upgrade env pm name).1.transactions = pm.transactions
      ∧ (Upgrade env pm name).1.nextTxId = pm.nextTxId := by
  unfold Upgrade
  cases hf : findInstalled pm name with
  | none => exact ⟨rfl, rfl⟩
  | some cur =>
    cases hl : lookupLatest pm.available name with
    | none => exact ⟨rfl, rfl⟩
    | some av =>
      dsimp only
      cases hv : strLt cur.version av.version with
      | false => rw [if_neg Bool.false_ne_true]; exact ⟨rfl, rfl⟩
      | true =>
        rw [if_pos rfl]
        unfold installPackage
        cases hl2 : lookupLatest pm.available name with
        | none => exact ⟨rfl, rfl⟩
        | some row =>
          dsimp only
          cases he : env name with
          | true => rw [if_pos rfl]; exact ⟨rfl, rfl⟩
          | false => rw [if_neg Bool.false_ne_true]; exact ⟨rfl, rfl⟩

/-- Claim C8 (amended): `Search` returns one row per matching index row —
the `SELECT DISTINCT` tuple includes the repository column, so the same
(name, version) pair appears once per repository carrying it — whose name or
description contains the query under the ASCII-case-insensitive `LIKE`
match (not case-sensitively), and the output is sorted by name ascending
and, within a name, version descending. -/
theorem search_result_C8 (avail : List AvailRow) (q : String) :
    List.Sorted searchLE (Search avail q)
      ∧ ∀ row, row ∈ Search avail q
          ↔ ∃ r, r ∈ avail ∧ rowMatches q r = true ∧ srowOf r = row := by
  constructor
  · exact List.sorted_insertionSort searchLE _
  · intro row
    unfold Search
    rw [(List.perm_insertionSort searchLE _).mem_iff, List.mem_dedup]
    constructor
    · intro hm
      obtain ⟨r, hr, hrr⟩ := List.mem_map.mp hm
      obtain ⟨hra, hrm⟩ := List.mem_filter.mp hr
      exact ⟨r, hra, hrm, hrr⟩
    · rintro ⟨r, hra, hrm, hrr⟩
      exact List.mem_map.mpr ⟨r, List.mem_filter.mpr ⟨hra, hrm⟩, hrr⟩

/-- Claim C8 counterexample: the index holds "Abc" version "1.0" in two
repositories and nothing else.  The spec's reading — distinct (name,
version) pairs matched case-sensitively — yields nothing for the query "a",
but `Search` matches "Abc" case-insensitively (SQLite `LIKE`) and returns
the pair ("Abc", "1.0") twice, once per repository: the result is neither
case-sensitive nor distinct as pairs. -/
theorem search_case_distinct_C8_counterexample :
    (Search axC8 "a").map (fun r => (r.name, r.version))
        = [("Abc", "1.0"), ("Abc", "1.0")]
      ∧ searchSpec axC8 "a" = [] := by
  refine ⟨by decide, by decide⟩

theorem upsert_not_installed (inst : List InstRow) (row : InstRow)
    (h : row.name ∉ inst.map (fun r => r.name)) :
    upsertInstalled inst row = inst ++ [row] := by
  have hne : ¬ (inst.any (fun r => r.name == row.name) = true) := by
    intro hany
    obtain ⟨r, hr, hbeq⟩ := List.any_eq_true.mp hany
    exact h (List.mem_map.mpr ⟨r, hr, eq_of_beq hbeq⟩)
  unfold upsertInstalled
  rw [if_neg hne]

theorem map_update_fresh (ts : List TxRec) (txId : Nat) (s : Bool)
    (hwf : ∀ t ∈ ts, t.id ≠ txId) :
    ts.map (fun t => if t.id == txId then { t with success := s } else t) = ts := by
  have hcongr : ∀ t ∈ ts, (if t.id == txId then { t with success := s } else t) = t := by
    intro t ht
    have hb : (t.id == txId) = false := by
      cases hb : t.id == txId with
      | false => rfl
      | true => exact absurd (eq_of_beq hb) (hwf t ht)
    rw [if_neg (by rw [hb]; exact Bool.false_ne_true)]
  calc ts.map (fun t => if t.id == txId then { t with success := s } else t)
      = ts.map id := List.map_congr_left hcongr
    _ = ts := List.map_id ts

theorem installRun_second_fails (env : String → Bool) (pm : PM) (p1 p2 p3 : String)
    (row : AvailRow)
    (hrow : lookupLatest pm.available p1 = some row)
    (h1e : env p1 = false) (h2e : env p2 = true)
    (h1n : row.name ∉ pm.installed.map (fun r => r.name))
    (hwf : ∀ t ∈ pm.transactions, t.id ≠ pm.nextTxId) :
    installRun env pm [p1, p2, p3]
      = ({ pm with
            installed := pm.installed ++ [snapshotRow row],
            transactions := pm.transactions ++ [⟨pm.nextTxId, "install", [p1, p2, p3], false⟩],
            nextTxId := pm.nextTxId + 1 },
          some "installation failed") := by
  have hsnap : (snapshotRow row).name = row.name := rfl
  have hup : upsertInstalled pm.installed (snapshotRow row) = pm.installed ++ [snapshotRow row] :=
    upsert_not_installed _ _ (by rw [hsnap]; exact h1n)
  have hmap := map_update_fresh pm.transactions pm.nextTxId false hwf
  have hmap2 : pm.transactions.map
      (fun t => if t.id = pm.nextTxId
        then { id := t.id, type := t.type, packages := t.packages, success := false } else t)
        = pm.transactions := by
    have h1 : pm.transactions.map
        (fun t => if t.id = pm.nextTxId
          then { id := t.id, type := t.type, packages := t.packages, success := false } else t)
          = pm.transactions.map id :=
      List.map_congr_left (fun t ht => if_neg (hwf t ht))
    rw [h1, List.map_id]
  cases hl2 : lookupLatest pm.available p2 with
  | none =>
    simp only [installRun, beginTransaction, applyLoop, installPackage, endTransaction,
      hrow, h1e, h2e, hl2, hup, hmap, List.map_append, List.map_cons, List.map_nil,
      Bool.false_eq_true, if_false]
    simp [hmap, hmap2]
  | some r2 =>
    simp only [installRun, beginTransaction, applyLoop, installPackage, endTransaction,
      hrow, h1e, h2e, hl2, hup, hmap, List.map_append, List.map_cons, List.map_nil,
      Bool.false_eq_true, if_false]
    simp [hmap, hmap2]

/-- Claim C1: in an Install run whose resolved set is [p1, p2, p3] with no
conflicts, where p1's apply succeeds and p2's apply fails, Install returns
the generic "installation failed" error; afterwards the Installed-Set Store
contains p1 but neither p2 nor p3 (the loop broke at the first failure, so
p3 was never attempted); and the transaction ledger gained exactly one
record — kind "install", success = false, listing all three names. -/
theorem install_partial_failure_C1 (env : String → Bool) (pm : PM)
    (root p1 p2 p3 : String) (row : AvailRow) (keyOrder : List String)
    (hres : ResolveDependencies pm.available (instNames pm) root = .ok [p1, p2, p3])
    (hchk : CheckConflicts pm [p1, p2, p3] keyOrder = none)
    (hrow : lookupLatest pm.available p1 = some row)
    (h1e : env p1 = false) (h2e : env p2 = true)
    (h1n : p1 ∉ instNames pm) (h2n : p2 ∉ instNames pm) (h3n : p3 ∉ instNames pm)
    (h21 : p2 ≠ p1) (h31 : p3 ≠ p1)
    (hwf : ∀ t ∈ pm.transactions, t.id ≠ pm.nextTxId) :
    (Install env pm root keyOrder).2 = some "installation failed"
      ∧ instNames (Install env pm root keyOrder).1 = instNames pm ++ [p1]
      ∧ p2 ∉ instNames (Install env pm root keyOrder).1
      ∧ p3 ∉ instNames (Install env pm root keyOrder).1
      ∧ (Install env pm root keyOrder).1.transactions
          = pm.transactions ++ [⟨pm.nextTxId, "install", [p1, p2, p3], false⟩] := by
  have hrowname : row.name = p1 := (lookupLatest_mem pm.available p1 row hrow).2
  have hInstall : Install env pm root keyOrder = installRun env pm [p1, p2, p3] := by
    unfold Install
    rw [hres]
    dsimp only
    rw [hchk]
  have hrun := installRun_second_fails env pm p1 p2 p3 row hrow h1e h2e
    (by rw [hrowname]; exact h1n) hwf
  rw [hInstall, hrun]
  have hnames : instNames
      { pm with
          installed := pm.installed ++ [snapshotRow row],
          transactions := pm.transactions ++ [⟨pm.nextTxId, "install", [p1, p2, p3], false⟩],
          nextTxId := pm.nextTxId + 1 }
        = instNames pm ++ [p1] := by
    unfold instNames
    rw [List.map_append]
    simp [snapshotRow, hrowname]
  refine ⟨rfl, hnames, ?_, ?_, rfl⟩
  · rw [hnames]
    intro hmem
    rcases List.mem_append.mp hmem with h | h
    · exact h2n h
    · exact h21 (by simpa using h)
  · rw [hnames]
    intro hmem
    rcases List.mem_append.mp hmem with h | h
    · exact h3n h
    · exact h31 (by simpa using h)

/-- Claim C1 witness: index A → {B, C}, empty store, write failure on B:
A is installed, B and C are not, and the single ledger record is a failed
"install" of [A, B, C]. -/
theorem install_partial_failure_C1_witness :
    (ResolveDependencies pmC1.available (instNames pmC1) "A" = .ok ["A", "B", "C"]
      ∧ envC1 "B" = true ∧ envC1 "A" = false)
      ∧ ((Install envC1 pmC1 "A" []).2 = some "installation failed"
          ∧ instNames (Install envC1 pmC1 "A" []).1 = instNames pmC1 ++ ["A"]
          ∧ "B" ∉ instNames (Install envC1 pmC1 "A" []).1
          ∧ "C" ∉ instNames (Install envC1 pmC1 "A" []).1
          ∧ (Install envC1 pmC1 "A" []).1.transactions
              = pmC1.transactions ++ [⟨pmC1.nextTxId, "install", ["A", "B", "C"], false⟩]) :=
  ⟨⟨rfl, by decide, by decide⟩,
    install_partial_failure_C1 envC1 pmC1 "A" "A" "B" "C"
      { name := "A", version := "1.0", repository := "r", architecture := "", description := "",
        dependencies := ["B", "C"], conflicts := [], size := 0, url := "", checksum := "" }
      [] rfl (by decide) (by decide) (by decide) (by decide) (by decide) (by decide) (by decide)
      (by decide) (by decide) (by intro t ht; simp [pmC1] at ht)⟩

/-- Claim C2: a failure during dependency resolution or during the conflict
check makes Install return that very error with the state untouched (first
two conjuncts), and conversely the transactions relation can only have
changed if resolution returned a package set and the conflict check passed
(third conjunct): a transaction record exists only after both phases
succeeded. -/
theorem install_aborts_before_transaction_C2 (env : String → Bool) (pm : PM)
    (name : String) (keyOrder : List String) :
    (∀ e, ResolveDependencies pm.available (instNames pm) name = .error e →
        Install env pm name keyOrder = (pm, some e))
      ∧ (∀ pkgs e, ResolveDependencies pm.available (instNames pm) name = .ok pkgs →
          CheckConflicts pm pkgs keyOrder = some e →
          Install env pm name keyOrder = (pm, some e))
      ∧ ((Install env pm name keyOrder).1.transactions ≠ pm.transactions →
          ∃ pkgs, ResolveDependencies pm.available (instNames pm) name = .ok pkgs
            ∧ CheckConflicts pm pkgs keyOrder = none) := by
  refine ⟨?_, ?_, ?_⟩
  · intro e he
    unfold Install
    rw [he]
  · intro pkgs e h1 h2
    unfold Install
    rw [h1]
    dsimp only
    rw [h2]
  · intro hne
    cases hres : ResolveDependencies pm.available (instNames pm) name with
    | error e =>
      exfalso
      apply hne
      unfold Install
      rw [hres]
    | ok pkgs =>
      cases hchk : CheckConflicts pm pkgs keyOrder with
      | none => exact ⟨pkgs, rfl, hchk⟩
      | some e =>
        exfalso
        apply hne
        unfold Install
        rw [hres]
        dsimp only
        rw [hchk]

/-- Claim C2 witness: resolving the unknown package "ghost" fails, and
Install returns exactly that error with the state (hence the transactions
relation) unchanged. -/
theorem install_aborts_before_transaction_C2_witness :
    (ResolveDependencies pmC6.available (instNames pmC6) "ghost"
        = .error "package ghost not found")
      ∧ Install (fun _ => false) pmC6 "ghost" []
          = (pmC6, some "package ghost not found") :=
  ⟨rfl,
    (install_aborts_before_transaction_C2 (fun _ => false) pmC6 "ghost" []).1
      "package ghost not found" rfl⟩
